import Mathlib

/-!
Verification of the Sierpinski-triangle vertex generator
(`src/main.cpp`, functions `midpoint`, `addPosAndColor`,
`addSierpinskiPts`, `initSierpinski`, constant `MAX_SIERPINSKI_DEPTH`).

The generator is embedded shallowly:

* `point_t` is modelled from the spec (its definition lives in
  `mytypes.h`, which is not part of the sources): an immutable triple of
  real-valued coordinates, represented with `ℚ`.
* The emitted floats are modelled by `FP`: either a finite real value
  (a `ℚ`, following the spec's "exact real-number semantics" for the
  IEEE arithmetic of the generator) or one of the non-finite IEEE
  values NaN / +inf / -inf, which arise exactly when the colour
  computation divides by a zero `MAX_SIERPINSKI_DEPTH`.
* The preprocessor constant `MAX_SIERPINSKI_DEPTH` is modelled as an
  explicit parameter `maxD` of the generation functions, so that the
  behaviour of the program family (one program per value of the macro)
  can be stated; the value `8` used by the shipped sources is the
  constant `MAX_SIERPINSKI_DEPTH` below.
* `std::vector<float>& points` with `push_back` becomes a `List FP`
  argument, the call returning the extended list.
-/

namespace Sierpinski

/-- Modelled from the spec: `point_t` is defined in `mytypes.h`, which is
missing from the sources; spec §3 describes a Point as an immutable
triple of real-valued coordinates (x, y, z). -/
structure point_t where
  x : ℚ
  y : ℚ
  z : ℚ
deriving DecidableEq, Repr

/-- An IEEE value produced by the generator: a finite value (modelled
exactly, as a rational), or NaN / +infinity / -infinity. -/
inductive FP where
  | fin : ℚ → FP
  | nan : FP
  | posInf : FP
  | negInf : FP
deriving DecidableEq, Repr

/-- IEEE division of two finite values (exact real-number semantics for
the finite case): `x / 0` is NaN when `x = 0`, and a signed infinity
otherwise. -/
def fpDiv (x y : ℚ) : FP :=
  if y = 0 then
    if x = 0 then FP.nan else if 0 < x then FP.posInf else FP.negInf
  else FP.fin (x / y)

/-- `#define MAX_SIERPINSKI_DEPTH 8` (main.cpp line 11). -/
def MAX_SIERPINSKI_DEPTH : ℤ := 8

/-- `midpoint` (main.cpp lines 115-121): componentwise
`(a.x + b.x) / 2.0` etc. -/
def midpoint (a b : point_t) : point_t where
  x := (a.x + b.x) / 2
  y := (a.y + b.y) / 2
  z := (a.z + b.z) / 2

/-- `addPosAndColor` (main.cpp lines 132-139): pushes
`p.x, p.y, p.z, 0.25f, depth * 1.0 / MAX_SIERPINSKI_DEPTH, 0.75f`
onto `points`, in that order.  The macro is the parameter `maxD`. -/
def addPosAndColor (maxD : ℤ) (p : point_t) (depth : ℤ)
    (points : List FP) : List FP :=
  points ++ [FP.fin p.x, FP.fin p.y, FP.fin p.z,
    FP.fin (1/4), fpDiv ((depth : ℚ) * 1) (maxD : ℚ), FP.fin (3/4)]

/-- `addSierpinskiPts` (main.cpp lines 152-165).  If
`depth <= MAX_SIERPINSKI_DEPTH` it emits the vertices `a`, `b`, `c` at
the current depth and recurses on `(a, ab, ac)`, `(b, ab, bc)`,
`(c, ac, bc)` at `depth + 1`; otherwise it leaves `points` unchanged. -/
def addSierpinskiPts (maxD : ℤ) (a b c : point_t) (depth : ℤ)
    (points : List FP) : List FP :=
  if h : depth ≤ maxD then
    let points1 := addPosAndColor maxD a depth points
    let points2 := addPosAndColor maxD b depth points1
    let points3 := addPosAndColor maxD c depth points2
    let ab := midpoint a b
    let ac := midpoint a c
    let bc := midpoint b c
    let points4 := addSierpinskiPts maxD a ab ac (depth + 1) points3
    let points5 := addSierpinskiPts maxD b ab bc (depth + 1) points4
    addSierpinskiPts maxD c ac bc (depth + 1) points5
  else
    points
termination_by (maxD + 1 - depth).toNat
decreasing_by all_goals omega

/-- `initSierpinski` (main.cpp lines 100-105): the root call, with the
hard-coded corners and depth 0, against the shipped macro value 8. -/
def initSierpinski (points : List FP) : List FP :=
  addSierpinskiPts MAX_SIERPINSKI_DEPTH
    ⟨-(1/2), -(1/2), 0⟩ ⟨0, 1/2, 0⟩ ⟨1/2, -(1/2), 0⟩ 0 points

/-- Ghost observation of the same recursion: the list of emitted
triangles, each with its three corners and the depth at which it is
emitted, in emission order. -/
def sierpTris (maxD : ℤ) (a b c : point_t) (depth : ℤ) :
    List (point_t × point_t × point_t × ℤ) :=
  if h : depth ≤ maxD then
    (a, b, c, depth) ::
      (sierpTris maxD a (midpoint a b) (midpoint a c) (depth + 1) ++
       sierpTris maxD b (midpoint a b) (midpoint b c) (depth + 1) ++
       sierpTris maxD c (midpoint a c) (midpoint b c) (depth + 1))
  else
    []
termination_by (maxD + 1 - depth).toNat
decreasing_by all_goals omega

/-- The six-float record of one vertex, as `addPosAndColor` lays it out. -/
def vertexRecord (maxD : ℤ) (p : point_t) (depth : ℤ) : List FP :=
  [FP.fin p.x, FP.fin p.y, FP.fin p.z,
   FP.fin (1/4), fpDiv ((depth : ℚ) * 1) (maxD : ℚ), FP.fin (3/4)]

/-- The 18 floats contributed by one emitted triangle. -/
def triRecord (maxD : ℤ) (t : point_t × point_t × point_t × ℤ) :
    List FP :=
  vertexRecord maxD t.1 t.2.2.2 ++ vertexRecord maxD t.2.1 t.2.2.2 ++
    vertexRecord maxD t.2.2.1 t.2.2.2

/-- `midpoint_spec`: the componentwise arithmetic mean, as the spec words
it (§3 glossary, §4.1). -/
def midpoint_spec (p q : point_t) : point_t where
  x := (p.x + q.x) / 2
  y := (p.y + q.y) / 2
  z := (p.z + q.z) / 2

-- ### Unfolding lemmas

theorem addPosAndColor_def (maxD : ℤ) (p : point_t) (depth : ℤ)
    (points : List FP) :
    addPosAndColor maxD p depth points =
      points ++ vertexRecord maxD p depth := rfl

theorem addSierpinskiPts_of_le {maxD depth : ℤ} (a b c : point_t)
    (points : List FP) (h : depth ≤ maxD) :
    addSierpinskiPts maxD a b c depth points =
      addSierpinskiPts maxD c (midpoint a c) (midpoint b c) (depth + 1)
        (addSierpinskiPts maxD b (midpoint a b) (midpoint b c) (depth + 1)
          (addSierpinskiPts maxD a (midpoint a b) (midpoint a c) (depth + 1)
            (addPosAndColor maxD c depth
              (addPosAndColor maxD b depth
                (addPosAndColor maxD a depth points))))) := by
  rw [addSierpinskiPts]
  simp [h]

theorem addSierpinskiPts_of_gt {maxD depth : ℤ} (a b c : point_t)
    (points : List FP) (h : maxD < depth) :
    addSierpinskiPts maxD a b c depth points = points := by
  rw [addSierpinskiPts]
  simp [not_le.mpr h]

theorem sierpTris_of_le {maxD depth : ℤ} (a b c : point_t)
    (h : depth ≤ maxD) :
    sierpTris maxD a b c depth =
      (a, b, c, depth) ::
        (sierpTris maxD a (midpoint a b) (midpoint a c) (depth + 1) ++
         sierpTris maxD b (midpoint a b) (midpoint b c) (depth + 1) ++
         sierpTris maxD c (midpoint a c) (midpoint b c) (depth + 1)) := by
  rw [sierpTris]
  simp [h]

theorem sierpTris_of_gt {maxD depth : ℤ} (a b c : point_t)
    (h : maxD < depth) :
    sierpTris maxD a b c depth = [] := by
  rw [sierpTris]
  simp [not_le.mpr h]

-- ### The stream is the concatenation of the triangle records

/-- Fuel-indexed master lemma: a call to `addSierpinskiPts` appends to
`points` exactly the concatenation of the 18-float records of the
triangles listed by `sierpTris`, in the same order. -/
theorem addSierpinskiPts_flatMap_fuel (maxD : ℤ) :
    ∀ (n : ℕ) (depth : ℤ), (maxD + 1 - depth).toNat ≤ n →
      ∀ (a b c : point_t) (points : List FP),
        addSierpinskiPts maxD a b c depth points =
          points ++ (sierpTris maxD a b c depth).flatMap (triRecord maxD) := by
  intro n
  induction n with
  | zero =>
    intro depth hn a b c points
    rw [addSierpinskiPts_of_gt _ _ _ _ (by omega),
      sierpTris_of_gt _ _ _ (by omega)]
    simp
  | succ n ih =>
    intro depth hn a b c points
    by_cases h : depth ≤ maxD
    · rw [addSierpinskiPts_of_le _ _ _ _ h, sierpTris_of_le _ _ _ h]
      simp only [ih (depth + 1) (by omega)]
      simp [addPosAndColor, triRecord, vertexRecord, List.flatMap_cons,
        List.flatMap_append, List.append_assoc]
    · rw [addSierpinskiPts_of_gt _ _ _ _ (by omega),
        sierpTris_of_gt _ _ _ (by omega)]
      simp

/-- The stream written by `addSierpinskiPts` is `points` followed by the
records of the emitted triangles in emission order. -/
theorem addSierpinskiPts_flatMap (maxD : ℤ) (a b c : point_t)
    (depth : ℤ) (points : List FP) :
    addSierpinskiPts maxD a b c depth points =
      points ++ (sierpTris maxD a b c depth).flatMap (triRecord maxD) :=
  addSierpinskiPts_flatMap_fuel maxD ((maxD + 1 - depth).toNat) depth
    le_rfl a b c points

-- ### Lengths

/-- Each emitted triangle contributes exactly 18 floats. -/
theorem length_flatMap_triRecord (maxD : ℤ)
    (l : List (point_t × point_t × point_t × ℤ)) :
    (l.flatMap (triRecord maxD)).length = 18 * l.length := by
  induction l with
  | nil => simp
  | cons t l ih =>
    simp [List.flatMap_cons, triRecord, vertexRecord, ih]
    omega

/-- The number of triangles emitted from `depth` satisfies
`2 * count + 1 = 3 ^ remaining`, where `remaining` counts the levels
`depth, …, maxD` plus one. -/
theorem sierpTris_length (maxD : ℤ) :
    ∀ (n : ℕ) (depth : ℤ), (maxD + 1 - depth).toNat = n →
      ∀ (a b c : point_t),
        2 * (sierpTris maxD a b c depth).length + 1 = 3 ^ n := by
  intro n
  induction n with
  | zero =>
    intro depth hn a b c
    rw [sierpTris_of_gt _ _ _ (by omega)]
    simp
  | succ n ih =>
    intro depth hn a b c
    rw [sierpTris_of_le _ _ _ (by omega)]
    have h1 := ih (depth + 1) (by omega) a (midpoint a b) (midpoint a c)
    have h2 := ih (depth + 1) (by omega) b (midpoint a b) (midpoint b c)
    have h3 := ih (depth + 1) (by omega) c (midpoint a c) (midpoint b c)
    have hp : (3 : ℕ) ^ (n + 1) = 3 ^ n * 3 := pow_succ 3 n
    simp only [List.length_cons, List.length_append]
    omega

-- ### Depths of emitted triangles

/-- Every triangle emitted from `depth` is emitted at a depth between
`depth` and `maxD`. -/
theorem sierpTris_depth_bounds (maxD : ℤ) :
    ∀ (n : ℕ) (depth : ℤ), (maxD + 1 - depth).toNat ≤ n →
      ∀ (a b c : point_t),
        ∀ t ∈ sierpTris maxD a b c depth,
          depth ≤ t.2.2.2 ∧ t.2.2.2 ≤ maxD := by
  intro n
  induction n with
  | zero =>
    intro depth hn a b c t ht
    rw [sierpTris_of_gt _ _ _ (by omega)] at ht
    simp at ht
  | succ n ih =>
    intro depth hn a b c t ht
    by_cases h : depth ≤ maxD
    · rw [sierpTris_of_le _ _ _ h] at ht
      rcases List.mem_cons.mp ht with h0 | hrest
      · subst h0
        exact ⟨le_refl _, h⟩
      · rcases List.mem_append.mp hrest with h01 | h3
        · rcases List.mem_append.mp h01 with h1 | h2
          · have := ih (depth + 1) (by omega) _ _ _ t h1
            exact ⟨by omega, this.2⟩
          · have := ih (depth + 1) (by omega) _ _ _ t h2
            exact ⟨by omega, this.2⟩
        · have := ih (depth + 1) (by omega) _ _ _ t h3
          exact ⟨by omega, this.2⟩
    · rw [sierpTris_of_gt _ _ _ (by omega)] at ht
      simp at ht

/-- Every depth level from `depth` up to `maxD` is reached by some
emitted triangle. -/
theorem sierpTris_depth_reached (maxD : ℤ) :
    ∀ (n : ℕ) (depth d : ℤ), (d - depth).toNat = n →
      depth ≤ d → d ≤ maxD →
      ∀ (a b c : point_t),
        ∃ t ∈ sierpTris maxD a b c depth, t.2.2.2 = d := by
  intro n
  induction n with
  | zero =>
    intro depth d hn hdd hdm a b c
    have hd : d = depth := by omega
    subst hd
    rw [sierpTris_of_le _ _ _ (by omega)]
    exact ⟨(a, b, c, d), List.mem_cons_self _ _, rfl⟩
  | succ n ih =>
    intro depth d hn hdd hdm a b c
    rw [sierpTris_of_le _ _ _ (by omega)]
    obtain ⟨t, ht, htd⟩ := ih (depth + 1) d (by omega) (by omega) hdm
      a (midpoint a b) (midpoint a c)
    refine ⟨t, ?_, htd⟩
    exact List.mem_cons_of_mem _
      (List.mem_append_left _ (List.mem_append_left _ ht))

-- ### Concrete evaluations

/-- A degenerate corner point used for concrete instances. -/
def p0 : point_t := ⟨0, 0, 0⟩

theorem midpoint_p0 : midpoint p0 p0 = p0 := by
  norm_num [midpoint, p0]

/-- With the macro set to 0, the root triangle is the only one emitted
and its green channel is the IEEE result of `0 * 1.0 / 0`, i.e. NaN. -/
theorem stream_maxD_zero (a b c : point_t) :
    addSierpinskiPts 0 a b c 0 [] =
      [FP.fin a.x, FP.fin a.y, FP.fin a.z, FP.fin (1/4), FP.nan, FP.fin (3/4),
       FP.fin b.x, FP.fin b.y, FP.fin b.z, FP.fin (1/4), FP.nan, FP.fin (3/4),
       FP.fin c.x, FP.fin c.y, FP.fin c.z, FP.fin (1/4), FP.nan, FP.fin (3/4)] := by
  rw [addSierpinskiPts_of_le _ _ _ _ (by omega)]
  rw [addSierpinskiPts_of_gt _ _ _ _ (by omega)]
  rw [addSierpinskiPts_of_gt _ _ _ _ (by omega)]
  rw [addSierpinskiPts_of_gt _ _ _ _ (by omega)]
  simp [addPosAndColor, fpDiv]

theorem tris_two_three : sierpTris 2 p0 p0 p0 3 = [] :=
  sierpTris_of_gt _ _ _ (by omega)

theorem tris_two_two : sierpTris 2 p0 p0 p0 2 = [(p0, p0, p0, 2)] := by
  rw [sierpTris_of_le _ _ _ (by omega), midpoint_p0]
  norm_num [tris_two_three]

theorem tris_two_one : sierpTris 2 p0 p0 p0 1 =
    [(p0, p0, p0, 1), (p0, p0, p0, 2), (p0, p0, p0, 2), (p0, p0, p0, 2)] := by
  rw [sierpTris_of_le _ _ _ (by omega), midpoint_p0]
  norm_num [tris_two_two]

theorem tris_two_zero : sierpTris 2 p0 p0 p0 0 =
    [(p0, p0, p0, 0),
     (p0, p0, p0, 1), (p0, p0, p0, 2), (p0, p0, p0, 2), (p0, p0, p0, 2),
     (p0, p0, p0, 1), (p0, p0, p0, 2), (p0, p0, p0, 2), (p0, p0, p0, 2),
     (p0, p0, p0, 1), (p0, p0, p0, 2), (p0, p0, p0, 2), (p0, p0, p0, 2)] := by
  rw [sierpTris_of_le _ _ _ (by omega), midpoint_p0]
  norm_num [tris_two_one]

-- ### The emitted vertices with their depths

/-- Ghost observation: the emitted vertices in emission order, each with
the depth at which it is emitted. -/
def sierpVerts (maxD : ℤ) (a b c : point_t) (depth : ℤ) :
    List (point_t × ℤ) :=
  (sierpTris maxD a b c depth).flatMap
    (fun t => [(t.1, t.2.2.2), (t.2.1, t.2.2.2), (t.2.2.1, t.2.2.2)])

/-- The three records of one triangle, with the green channel written as
the exact quotient `depth / maxD` (the shape the spec describes for a
non-zero depth bound). -/
theorem triRecord_flat_eq (maxD : ℤ) (h : maxD ≠ 0)
    (l : List (point_t × point_t × point_t × ℤ)) :
    (l.flatMap (fun t =>
        [(t.1, t.2.2.2), (t.2.1, t.2.2.2), (t.2.2.1, t.2.2.2)])).flatMap
      (fun v => [FP.fin v.1.x, FP.fin v.1.y, FP.fin v.1.z,
        FP.fin (1/4), FP.fin ((v.2 : ℚ) / (maxD : ℚ)), FP.fin (3/4)]) =
    l.flatMap (triRecord maxD) := by
  have hq : (maxD : ℚ) ≠ 0 := Int.cast_ne_zero.mpr h
  induction l with
  | nil => rfl
  | cons t l ih =>
    simp only [List.flatMap_cons, List.flatMap_append, ih]
    simp [triRecord, vertexRecord, fpDiv, hq]

-- ### The claims

/-- C1: for every `maxDepth = D ≥ 0` and arbitrary corner points, the
stream produced by `addSierpinskiPts` started at depth 0 holds exactly
`6 * 3 * (3^(D+1) - 1) / 2` floating-point values. -/
theorem generate_float_count (D : ℕ) (a b c : point_t) :
    (addSierpinskiPts (D : ℤ) a b c 0 []).length =
      6 * 3 * (3 ^ (D + 1) - 1) / 2 := by
  rw [addSierpinskiPts_flatMap]
  have hL := sierpTris_length (D : ℤ) (D + 1) 0 (by omega) a b c
  rw [List.nil_append, length_flatMap_triRecord]
  omega

/-- C2: a call at `depth ≤ maxDepth` emits the records of `a`, `b`, `c`
in that order at the current depth and then appends, depth-first and in
this order, the streams of `(a, mid(a,b), mid(a,c))`,
`(b, mid(a,b), mid(b,c))`, `(c, mid(a,c), mid(b,c))` at `depth + 1`;
a call at `depth > maxDepth` emits nothing. -/
theorem subdivide_emission_order (maxD : ℤ) (a b c : point_t)
    (depth : ℤ) (points : List FP) :
    addSierpinskiPts maxD a b c depth points =
      if depth ≤ maxD then
        points ++
          (vertexRecord maxD a depth ++ vertexRecord maxD b depth ++
            vertexRecord maxD c depth) ++
          addSierpinskiPts maxD a (midpoint a b) (midpoint a c) (depth + 1) [] ++
          addSierpinskiPts maxD b (midpoint a b) (midpoint b c) (depth + 1) [] ++
          addSierpinskiPts maxD c (midpoint a c) (midpoint b c) (depth + 1) []
      else points := by
  by_cases h : depth ≤ maxD
  · rw [if_pos h, addSierpinskiPts_of_le _ _ _ _ h]
    simp only [addSierpinskiPts_flatMap, addPosAndColor_def]
    simp [List.append_assoc]
  · rw [if_neg h, addSierpinskiPts_of_gt _ _ _ _ (by omega)]

/-- C3: with a non-zero depth bound, the stream is exactly the
concatenation, vertex by vertex, of six-value records: the generating
point's x, y, z copied verbatim, then red `0.25`, green
`depth / MAX_SIERPINSKI_DEPTH`, blue `0.75`. -/
theorem vertex_record_layout (maxD : ℤ) (h : maxD ≠ 0)
    (a b c : point_t) :
    addSierpinskiPts maxD a b c 0 [] =
      (sierpVerts maxD a b c 0).flatMap
        (fun v => [FP.fin v.1.x, FP.fin v.1.y, FP.fin v.1.z,
          FP.fin (1/4), FP.fin ((v.2 : ℚ) / (maxD : ℚ)), FP.fin (3/4)]) := by
  rw [addSierpinskiPts_flatMap, sierpVerts, triRecord_flat_eq maxD h]
  simp

/-- C3 witness: the layout theorem at `maxD = 1` and concrete corners. -/
theorem vertex_record_layout_witness :
    (1 : ℤ) ≠ 0 ∧
    addSierpinskiPts 1 p0 p0 p0 0 [] =
      (sierpVerts 1 p0 p0 p0 0).flatMap
        (fun v => [FP.fin v.1.x, FP.fin v.1.y, FP.fin v.1.z,
          FP.fin (1/4), FP.fin ((v.2 : ℚ) / ((1 : ℤ) : ℚ)), FP.fin (3/4)]) :=
  ⟨by omega, vertex_record_layout 1 (by omega) p0 p0 p0⟩

/-- C4 counterexample: with the depth bound 0, the output is NOT the
three corner records with green = 0 — the division `0 * 1.0 / 0` is
performed and yields NaN, not 0. -/
theorem maxDepth_zero_green_not_zero :
    addSierpinskiPts 0 p0 p0 p0 0 [] ≠
      [FP.fin 0, FP.fin 0, FP.fin 0, FP.fin (1/4), FP.fin 0, FP.fin (3/4),
       FP.fin 0, FP.fin 0, FP.fin 0, FP.fin (1/4), FP.fin 0, FP.fin (3/4),
       FP.fin 0, FP.fin 0, FP.fin 0, FP.fin (1/4), FP.fin 0, FP.fin (3/4)] := by
  rw [stream_maxD_zero]
  simp [p0]

/-- C4 as amended: for `maxDepth = 0` the output is exactly three vertex
records, positions `a`, `b`, `c` in input order, red `0.25` and blue
`0.75`, but the green channel is NaN (the result of the IEEE division
`0 * 1.0 / 0`), not 0. -/
theorem maxDepth_zero_output (a b c : point_t) :
    addSierpinskiPts 0 a b c 0 [] =
      [FP.fin a.x, FP.fin a.y, FP.fin a.z, FP.fin (1/4), FP.nan, FP.fin (3/4),
       FP.fin b.x, FP.fin b.y, FP.fin b.z, FP.fin (1/4), FP.nan, FP.fin (3/4),
       FP.fin c.x, FP.fin c.y, FP.fin c.z, FP.fin (1/4), FP.nan, FP.fin (3/4)] :=
  stream_maxD_zero a b c

/-- C5: for any negative `maxDepth` the generation procedure emits
nothing: depth 0 already exceeds the bound. -/
theorem negative_maxDepth_empty (maxD : ℤ) (h : maxD < 0)
    (a b c : point_t) :
    addSierpinskiPts maxD a b c 0 [] = [] :=
  addSierpinskiPts_of_gt a b c [] (by omega)

/-- C5 witness: `maxDepth = -1` with concrete corners yields the empty
stream. -/
theorem negative_maxDepth_empty_witness :
    addSierpinskiPts (-1) p0 p0 p0 0 [] = [] :=
  negative_maxDepth_empty (-1) (by omega) p0 p0 p0

/-- C6: `midpoint` equals the componentwise arithmetic mean of its two
arguments, exactly. -/
theorem midpoint_is_componentwise_mean (p q : point_t) :
    midpoint p q = midpoint_spec p q := rfl

/-- C7: for `maxDepth ≥ 0` the recursion (a total function in this
embedding, by the strictly decreasing measure `maxD + 1 - depth`)
reaches exactly the nesting levels `0, 1, …, maxD` — every emitted
triangle's depth lies in that range, and every level in the range is
reached — i.e. `maxDepth + 1` levels. -/
theorem recursion_depth_levels (maxD : ℤ) (h : 0 ≤ maxD)
    (a b c : point_t) :
    (∀ t ∈ sierpTris maxD a b c 0, 0 ≤ t.2.2.2 ∧ t.2.2.2 ≤ maxD) ∧
    (∀ d : ℤ, 0 ≤ d → d ≤ maxD →
      ∃ t ∈ sierpTris maxD a b c 0, t.2.2.2 = d) := by
  constructor
  · intro t ht
    exact sierpTris_depth_bounds maxD _ 0 le_rfl a b c t ht
  · intro d h0 h1
    exact sierpTris_depth_reached maxD ((d - 0).toNat) 0 d rfl h0 h1 a b c

/-- C7 witness: the depth-level characterisation at `maxD = 1` and
concrete corners. -/
theorem recursion_depth_levels_witness :
    (∀ t ∈ sierpTris 1 p0 p0 p0 0, 0 ≤ t.2.2.2 ∧ t.2.2.2 ≤ 1) ∧
    (∀ d : ℤ, 0 ≤ d → d ≤ 1 →
      ∃ t ∈ sierpTris 1 p0 p0 p0 0, t.2.2.2 = d) :=
  recursion_depth_levels 1 (by omega) p0 p0 p0

/-- C8 counterexample: at `maxDepth = 2` the triangle emitted 6th (index
5, depth 1, the second child of the root) comes after the triangle
emitted 3rd (index 2, depth 2, inside the first child's subtree), so a
shallower triangle does NOT always precede a strictly deeper one. -/
theorem emission_depth_order_counterexample :
    ¬ (∀ (i j : ℕ) (ti tj : point_t × point_t × point_t × ℤ),
        (sierpTris 2 p0 p0 p0 0)[i]? = some ti →
        (sierpTris 2 p0 p0 p0 0)[j]? = some tj →
        ti.2.2.2 < tj.2.2.2 → i < j) := by
  intro hcl
  have h5 : (sierpTris 2 p0 p0 p0 0)[5]? = some (p0, p0, p0, 1) := by
    rw [tris_two_zero]
    rfl
  have h2 : (sierpTris 2 p0 p0 p0 0)[2]? = some (p0, p0, p0, 2) := by
    rw [tris_two_zero]
    rfl
  have h52 := hcl 5 2 _ _ h5 h2 (by decide)
  omega

/-- C8 as amended: within each recursive call's subtree the triangle
emitted at the current (shallowest) depth precedes every other,
strictly deeper, triangle of that subtree; the global version across
sibling subtrees is false. -/
theorem subtree_root_precedes_descendants (maxD : ℤ)
    (a b c : point_t) (depth : ℤ) :
    sierpTris maxD a b c depth = [] ∨
      ∃ rest, sierpTris maxD a b c depth = (a, b, c, depth) :: rest ∧
        ∀ t ∈ rest, depth < t.2.2.2 := by
  by_cases h : depth ≤ maxD
  · right
    refine ⟨_, sierpTris_of_le _ _ _ h, ?_⟩
    intro t ht
    rcases List.mem_append.mp ht with h01 | h3
    · rcases List.mem_append.mp h01 with h1 | h2
      · have := sierpTris_depth_bounds maxD _ (depth + 1) le_rfl _ _ _ t h1
        omega
      · have := sierpTris_depth_bounds maxD _ (depth + 1) le_rfl _ _ _ t h2
        omega
    · have := sierpTris_depth_bounds maxD _ (depth + 1) le_rfl _ _ _ t h3
      omega
  · left
    exact sierpTris_of_gt _ _ _ (by omega)

/-- C9 counterexample: at the reference bound 8 (the shipped
`MAX_SIERPINSKI_DEPTH`), the stream does NOT hold 59,022 floats. -/
theorem reference_depth_count_counterexample :
    (initSierpinski []).length ≠ 59022 := by
  rw [initSierpinski, addSierpinskiPts_flatMap]
  have hL := sierpTris_length MAX_SIERPINSKI_DEPTH 9 0
    (by unfold MAX_SIERPINSKI_DEPTH; omega)
    ⟨-(1/2), -(1/2), 0⟩ ⟨0, 1/2, 0⟩ ⟨1/2, -(1/2), 0⟩
  norm_num at hL
  rw [List.nil_append, length_flatMap_triRecord]
  omega

/-- C9 as amended: at the reference bound 8 the stream holds exactly
29,523 vertex records, i.e. `6 * 29523 = 177138` floats. -/
theorem reference_depth_float_count :
    (initSierpinski []).length = 6 * 29523 := by
  rw [initSierpinski, addSierpinskiPts_flatMap]
  have hL := sierpTris_length MAX_SIERPINSKI_DEPTH 9 0
    (by unfold MAX_SIERPINSKI_DEPTH; omega)
    ⟨-(1/2), -(1/2), 0⟩ ⟨0, 1/2, 0⟩ ⟨1/2, -(1/2), 0⟩
  norm_num at hL
  rw [List.nil_append, length_flatMap_triRecord]
  omega

/-- C10: `addPosAndColor` appends exactly 6 floats after the prior
contents, and `addSierpinskiPts` appends after the prior contents a
number of floats that is a multiple of 6. -/
theorem append_only_multiple_of_six (maxD : ℤ) (p : point_t) (d : ℤ)
    (a b c : point_t) (depth : ℤ) (points : List FP) :
    (∃ s, addPosAndColor maxD p d points = points ++ s ∧ s.length = 6) ∧
    (∃ s, addSierpinskiPts maxD a b c depth points = points ++ s ∧
      s.length % 6 = 0) := by
  constructor
  · exact ⟨vertexRecord maxD p d, addPosAndColor_def maxD p d points,
      by simp [vertexRecord]⟩
  · refine ⟨_, addSierpinskiPts_flatMap maxD a b c depth points, ?_⟩
    rw [length_flatMap_triRecord]
    omega

end Sierpinski
